import Mathlib

/-!
Verification of the 2d-Constraints-Demos constraint-solving core
(src/solutions/rust/src). The Rust f32 arithmetic is modelled with real
numbers; machine 32/64-bit integers of the spatial hash are modelled with
Int together with explicit reduction modulo 2^64 where the source can wrap.
Every definition below mirrors one Rust item, named after it; doc comments
cite the source file.
-/

noncomputable section

/-- Vec2 from particle.rs (lines 24-28): a 2D vector with f32 components,
modelled over the reals. -/
@[ext]
structure Vec2 where
  x : ℝ
  y : ℝ

/-- Vec2::ZERO (particle.rs line 42). -/
def Vec2.ZERO : Vec2 := ⟨0, 0⟩

/-- Operator + on Vec2 (particle.rs lines 116-125). -/
instance : Add Vec2 := ⟨fun a b => ⟨a.x + b.x, a.y + b.y⟩⟩

/-- Operator - on Vec2 (particle.rs lines 128-137). -/
instance : Sub Vec2 := ⟨fun a b => ⟨a.x - b.x, a.y - b.y⟩⟩

/-- Operator * by an f32 scalar (particle.rs lines 140-149). -/
instance : HMul Vec2 ℝ Vec2 := ⟨fun v s => ⟨v.x * s, v.y * s⟩⟩

/-- Operator / by an f32 scalar (particle.rs lines 152-161). -/
instance : HDiv Vec2 ℝ Vec2 := ⟨fun v s => ⟨v.x / s, v.y / s⟩⟩

@[simp] lemma Vec2.add_x (a b : Vec2) : (a + b).x = a.x + b.x := rfl
@[simp] lemma Vec2.add_y (a b : Vec2) : (a + b).y = a.y + b.y := rfl
@[simp] lemma Vec2.sub_x (a b : Vec2) : (a - b).x = a.x - b.x := rfl
@[simp] lemma Vec2.sub_y (a b : Vec2) : (a - b).y = a.y - b.y := rfl
@[simp] lemma Vec2.mul_x (a : Vec2) (s : ℝ) : (a * s).x = a.x * s := rfl
@[simp] lemma Vec2.mul_y (a : Vec2) (s : ℝ) : (a * s).y = a.y * s := rfl
@[simp] lemma Vec2.div_x (a : Vec2) (s : ℝ) : (a / s).x = a.x / s := rfl
@[simp] lemma Vec2.div_y (a : Vec2) (s : ℝ) : (a / s).y = a.y / s := rfl
@[simp] lemma Vec2.zero_x : Vec2.ZERO.x = 0 := rfl
@[simp] lemma Vec2.zero_y : Vec2.ZERO.y = 0 := rfl

/-- Vec2::length (particle.rs lines 46-50): sqrt(x*x + y*y). -/
def Vec2.length (v : Vec2) : ℝ := Real.sqrt (v.x * v.x + v.y * v.y)

/-- Vec2::normalize (particle.rs lines 60-72): scales to unit length, and
returns the zero vector when the length is not positive. -/
def Vec2.normalize (v : Vec2) : Vec2 :=
  if v.length > 0 then ⟨v.x / v.length, v.y / v.length⟩ else Vec2.ZERO

/-- Vec2::with_length (particle.rs lines 76-86): keeps the direction and
sets the length, returning the zero vector for a zero-length input. -/
def Vec2.with_length (v : Vec2) (new_length : ℝ) : Vec2 :=
  if v.length > 0 then ⟨v.x / v.length * new_length, v.y / v.length * new_length⟩
  else Vec2.ZERO

/-- Vec2::distance (particle.rs lines 90-92). -/
def Vec2.distance (a b : Vec2) : ℝ := (a - b).length

/-- Particle (particle.rs lines 184-189). The color field is an opaque
display attribute that participates in no computation (spec section 3), so
it is omitted from the model. -/
structure Particle where
  pos : Vec2
  radius : ℝ

/-- Default for Particle (particle.rs lines 200-208): zero position and
radius 10 (the color default is cosmetic and omitted). -/
instance : Inhabited Particle := ⟨⟨Vec2.ZERO, 10⟩⟩

/-- ConstraintResolver::distance (particle.rs lines 232-239): repositions
point at the given distance from anchor along the anchor-to-point
direction. The f32 parameter named distance in the source is called d
here to avoid clashing with the function name. -/
def ConstraintResolver.distance (point anchor : Vec2) (d : ℝ) : Vec2 :=
  let direction := point - anchor
  direction.normalize * d + anchor

/-! ### Basic Vec2 lemmas -/

lemma Vec2.length_nonneg (v : Vec2) : 0 ≤ v.length := Real.sqrt_nonneg _

/-- Evaluation helper for square roots of perfect squares. -/
lemma sqrt_eval {a b : ℝ} (hb : 0 ≤ b) (h : b * b = a) : Real.sqrt a = b := by
  rw [← h]; exact Real.sqrt_mul_self hb

lemma Vec2.length_mk (x y : ℝ) : (Vec2.mk x y).length = Real.sqrt (x * x + y * y) := rfl

lemma Vec2.length_mul_self (v : Vec2) : v.length * v.length = v.x * v.x + v.y * v.y :=
  Real.mul_self_sqrt (add_nonneg (mul_self_nonneg _) (mul_self_nonneg _))

lemma Vec2.length_eq_zero_iff (v : Vec2) : v.length = 0 ↔ v = Vec2.ZERO := by
  constructor
  · intro h
    have h2 : v.x * v.x + v.y * v.y = 0 := by
      have := v.length_mul_self
      rw [h] at this; linarith
    have hx : v.x = 0 := by nlinarith [sq_nonneg v.x, sq_nonneg v.y]
    have hy : v.y = 0 := by nlinarith [sq_nonneg v.x, sq_nonneg v.y]
    ext <;> simp [hx, hy]
  · intro h
    subst h
    simp [Vec2.length]

lemma Vec2.length_pos_iff (v : Vec2) : 0 < v.length ↔ v ≠ Vec2.ZERO := by
  constructor
  · intro h hz
    subst hz
    simp [Vec2.length] at h
  · intro h
    rcases lt_or_eq_of_le v.length_nonneg with h1 | h1
    · exact h1
    · exact absurd (v.length_eq_zero_iff.mp h1.symm) h

lemma Vec2.length_smul (v : Vec2) (s : ℝ) : (v * s).length = v.length * |s| := by
  show (Vec2.mk (v.x * s) (v.y * s)).length = v.length * |s|
  rw [Vec2.length_mk]
  apply sqrt_eval (mul_nonneg v.length_nonneg (abs_nonneg s))
  have hms := v.length_mul_self
  have habs : |s| * |s| = s * s := abs_mul_abs_self s
  have key : v.length * |s| * (v.length * |s|) = v.length * v.length * (|s| * |s|) := by ring
  rw [key, hms, habs]
  ring

lemma Vec2.length_sub_comm (a b : Vec2) : (a - b).length = (b - a).length := by
  unfold Vec2.length
  simp only [Vec2.sub_x, Vec2.sub_y]
  ring_nf

lemma Vec2.distance_comm (a b : Vec2) : a.distance b = b.distance a :=
  Vec2.length_sub_comm a b

lemma Vec2.normalize_length (v : Vec2) (h : v ≠ Vec2.ZERO) : v.normalize.length = 1 := by
  have hpos : 0 < v.length := v.length_pos_iff.mpr h
  have hne : v.length ≠ 0 := ne_of_gt hpos
  have hms := v.length_mul_self
  unfold Vec2.normalize
  rw [if_pos hpos, Vec2.length_mk]
  apply sqrt_eval zero_le_one
  field_simp
  linarith

lemma Vec2.with_length_length (v : Vec2) (s : ℝ) (h : v ≠ Vec2.ZERO) :
    (v.with_length s).length = |s| := by
  have hpos : 0 < v.length := v.length_pos_iff.mpr h
  have hne : v.length ≠ 0 := ne_of_gt hpos
  have hms := v.length_mul_self
  have habs : |s| * |s| = s * s := abs_mul_abs_self s
  unfold Vec2.with_length
  rw [if_pos hpos, Vec2.length_mk]
  apply sqrt_eval (abs_nonneg s)
  field_simp
  nlinarith

lemma Vec2.with_length_self (v : Vec2) (h : v ≠ Vec2.ZERO) :
    v.with_length v.length = v := by
  have hpos : 0 < v.length := v.length_pos_iff.mpr h
  have hne : v.length ≠ 0 := ne_of_gt hpos
  unfold Vec2.with_length
  rw [if_pos hpos]
  ext
  · show v.x / v.length * v.length = v.x
    field_simp
  · show v.y / v.length * v.length = v.y
    field_simp

lemma Vec2.sub_ne_zero {a b : Vec2} (h : a ≠ b) : a - b ≠ Vec2.ZERO := by
  intro hz
  apply h
  have hx : a.x - b.x = 0 := congrArg Vec2.x hz
  have hy : a.y - b.y = 0 := congrArg Vec2.y hz
  ext <;> linarith

/-- After ConstraintResolver::distance with a nonzero direction, the result
sits at exactly the absolute target distance from the anchor. -/
lemma ConstraintResolver.distance_dist (point anchor : Vec2) (d : ℝ)
    (h : point ≠ anchor) :
    (ConstraintResolver.distance point anchor d).distance anchor = |d| := by
  unfold ConstraintResolver.distance Vec2.distance
  have hne : point - anchor ≠ Vec2.ZERO := Vec2.sub_ne_zero h
  have h1 : (point - anchor).normalize * d + anchor - anchor = (point - anchor).normalize * d := by
    ext <;> simp
  rw [h1, Vec2.length_smul, Vec2.normalize_length _ hne, one_mul]

/-- Normalizing the zero vector yields the zero vector (the length guard
branch of particle.rs lines 68-71). -/
lemma Vec2.normalize_zero : Vec2.ZERO.normalize = Vec2.ZERO := by
  unfold Vec2.normalize
  rw [if_neg]
  simp [Vec2.length]

lemma ConstraintResolver.distance_self (anchor : Vec2) (d : ℝ) :
    ConstraintResolver.distance anchor anchor d = anchor := by
  show (anchor - anchor).normalize * d + anchor = anchor
  have hz : anchor - anchor = Vec2.ZERO := by ext <;> simp
  rw [hz, Vec2.normalize_zero]
  ext <;> simp

/-! ### SpatialHash (spatial_hash.rs) -/

/-- Reinterpretation of an unbounded integer as a 64-bit two-complement
value: reduce modulo 2^64 into the interval [-2^63, 2^63). This models the
wrap-around an i64 shift could produce; for cell coordinates in the i32
range no wrap actually occurs. -/
def toI64 (n : Int) : Int := (n + 2 ^ 63) % 2 ^ 64 - 2 ^ 63

/-- SpatialHash (spatial_hash.rs lines 44-54): the HashMap from i64 cell
key to the Vec of particle indices is modelled as a total function from
Int to List Nat, absent keys mapping to the empty list (matching get_nearby,
which skips absent keys, and insert, which starts from an empty Vec). -/
structure SpatialHash where
  cell_size : ℝ
  cells : Int → List Nat

/-- SpatialHash::new (spatial_hash.rs lines 63-70). -/
def SpatialHash.new (cell_size : ℝ) : SpatialHash := ⟨cell_size, fun _ => []⟩

/-- SpatialHash::get_cell_key (spatial_hash.rs lines 80-86):
((cell_x as i64) << 32) | ((cell_y as i64) & 0xFFFFFFFF). For an i32
cell_y, (cell_y as i64) & 0xFFFFFFFF equals cell_y mod 2^32 (the low 32
two-complement bits, a value in [0, 2^32)), and since the low 32 bits of
(cell_x as i64) << 32 are zero the bitwise or is addition; toI64 applies
the i64 wrap-around of the shift. -/
def SpatialHash.get_cell_key (cell_x cell_y : Int) : Int :=
  toI64 (cell_x * 2 ^ 32 + cell_y % 2 ^ 32)

/-- SpatialHash::get_cell_coords (spatial_hash.rs lines 90-96):
floor division of each component by cell_size. The saturating f32-to-i32
cast is not modelled: coordinate overflow is out of scope (spec section 7). -/
def SpatialHash.get_cell_coords (h : SpatialHash) (pos : Vec2) : Int × Int :=
  (⌊pos.x / h.cell_size⌋, ⌊pos.y / h.cell_size⌋)

/-- SpatialHash::clear (spatial_hash.rs lines 100-106): every cell list
becomes empty (retained capacity is not observable in the model). -/
def SpatialHash.clear (h : SpatialHash) : SpatialHash := ⟨h.cell_size, fun _ => []⟩

/-- SpatialHash::insert (spatial_hash.rs lines 113-124): appends the index
to the list of the cell whose key is computed from the coordinates of pos
(an absent key starts from the empty Vec). -/
def SpatialHash.insert (h : SpatialHash) (index : Nat) (pos : Vec2) : SpatialHash :=
  ⟨h.cell_size, fun k =>
    if k = SpatialHash.get_cell_key (h.get_cell_coords pos).1 (h.get_cell_coords pos).2
    then h.cells k ++ [index] else h.cells k⟩

/-- SpatialHash::get_nearby (spatial_hash.rs lines 136-154): concatenates
the lists of the 9 cells of the 3x3 neighborhood, dx outer and dy inner,
each ranging over -1..=1. -/
def SpatialHash.get_nearby (h : SpatialHash) (pos : Vec2) : List Nat :=
  let c := h.get_cell_coords pos
  ([-1, 0, 1] : List Int).flatMap fun dx =>
    ([-1, 0, 1] : List Int).flatMap fun dy =>
      h.cells (SpatialHash.get_cell_key (c.1 + dx) (c.2 + dy))

@[simp] lemma SpatialHash.new_cell_size (s : ℝ) : (SpatialHash.new s).cell_size = s := rfl

@[simp] lemma SpatialHash.new_cells (s : ℝ) (k : Int) : (SpatialHash.new s).cells k = [] := rfl

@[simp] lemma SpatialHash.insert_cell_size (h : SpatialHash) (i : Nat) (p : Vec2) :
    (h.insert i p).cell_size = h.cell_size := rfl

@[simp] lemma SpatialHash.insert_coords (h : SpatialHash) (i : Nat) (p q : Vec2) :
    (h.insert i p).get_cell_coords q = h.get_cell_coords q := rfl

/-- The inserted index lands in the cell of its own position. -/
lemma SpatialHash.mem_insert_self (h : SpatialHash) (i : Nat) (p : Vec2) :
    i ∈ (h.insert i p).cells
      (SpatialHash.get_cell_key (h.get_cell_coords p).1 (h.get_cell_coords p).2) := by
  show i ∈ if _ = _ then h.cells _ ++ [i] else h.cells _
  rw [if_pos rfl]
  simp

/-- Insertion preserves every existing cell membership. -/
lemma SpatialHash.mem_insert_of_mem {h : SpatialHash} {x : Nat} {k : Int}
    (hm : x ∈ h.cells k) (i : Nat) (p : Vec2) : x ∈ (h.insert i p).cells k := by
  show x ∈ if _ then h.cells k ++ [i] else h.cells k
  by_cases hk : k = SpatialHash.get_cell_key (h.get_cell_coords p).1 (h.get_cell_coords p).2
  · rw [if_pos hk]
    exact List.mem_append_left _ hm
  · rwa [if_neg hk]

/-- Cell membership after an insertion comes from the old grid or is the
new index. -/
lemma SpatialHash.mem_insert_elim {h : SpatialHash} {x i : Nat} {k : Int} {p : Vec2}
    (hm : x ∈ (h.insert i p).cells k) : x ∈ h.cells k ∨ x = i := by
  have hm2 : x ∈ if k = SpatialHash.get_cell_key (h.get_cell_coords p).1 (h.get_cell_coords p).2
      then h.cells k ++ [i] else h.cells k := hm
  by_cases hk : k = SpatialHash.get_cell_key (h.get_cell_coords p).1 (h.get_cell_coords p).2
  · rw [if_pos hk] at hm2
    rcases List.mem_append.mp hm2 with hm3 | hm3
    · exact Or.inl hm3
    · exact Or.inr (List.mem_singleton.mp hm3)
  · rw [if_neg hk] at hm2
    exact Or.inl hm2

/-- Coordinates of floors of nearby reals: if two positions are within
cell_size of each other, their cell coordinates differ by at most one per
axis. -/
lemma floor_div_close {s a b : ℝ} (hs : 0 < s) (hd : |a - b| ≤ s) :
    ⌊a / s⌋ - 1 ≤ ⌊b / s⌋ ∧ ⌊b / s⌋ ≤ ⌊a / s⌋ + 1 := by
  have h1 : b ≤ a + s := by
    have := abs_le.mp hd
    linarith [this.1]
  have h2 : a ≤ b + s := by
    have := abs_le.mp hd
    linarith [this.2]
  constructor
  · have hdiv : a / s ≤ b / s + 1 := by
      have h3 : a / s ≤ (b + s) / s := by gcongr
      rwa [add_div, div_self (ne_of_gt hs)] at h3
    have := Int.floor_le_floor hdiv
    rw [Int.floor_add_one] at this
    omega
  · have hdiv : b / s ≤ a / s + 1 := by
      have h3 : b / s ≤ (a + s) / s := by gcongr
      rwa [add_div, div_self (ne_of_gt hs)] at h3
    have := Int.floor_le_floor hdiv
    rw [Int.floor_add_one] at this
    omega

/-- The x-projection of the distance bounds the coordinate difference. -/
lemma Vec2.abs_sub_x_le_distance (a b : Vec2) : |a.x - b.x| ≤ a.distance b := by
  unfold Vec2.distance Vec2.length
  have h1 : |a.x - b.x| = Real.sqrt ((a.x - b.x) * (a.x - b.x)) :=
    (sqrt_eval (abs_nonneg _) (abs_mul_abs_self _)).symm
  rw [h1]
  apply Real.sqrt_le_sqrt
  simp only [Vec2.sub_x, Vec2.sub_y]
  nlinarith [mul_self_nonneg (a.y - b.y)]

/-- The y-projection of the distance bounds the coordinate difference. -/
lemma Vec2.abs_sub_y_le_distance (a b : Vec2) : |a.y - b.y| ≤ a.distance b := by
  unfold Vec2.distance Vec2.length
  have h1 : |a.y - b.y| = Real.sqrt ((a.y - b.y) * (a.y - b.y)) :=
    (sqrt_eval (abs_nonneg _) (abs_mul_abs_self _)).symm
  rw [h1]
  apply Real.sqrt_le_sqrt
  simp only [Vec2.sub_x, Vec2.sub_y]
  nlinarith [mul_self_nonneg (a.x - b.x)]

/-- Membership in the cell of a position within cell_size of the query
point implies membership in the 3x3 neighborhood query result. -/
lemma SpatialHash.mem_get_nearby {h : SpatialHash} {p q : Vec2} {idx : Nat}
    (hs : 0 < h.cell_size) (hd : p.distance q ≤ h.cell_size)
    (hmem : idx ∈ h.cells
      (SpatialHash.get_cell_key (h.get_cell_coords q).1 (h.get_cell_coords q).2)) :
    idx ∈ h.get_nearby p := by
  have hx : |p.x - q.x| ≤ h.cell_size := le_trans (p.abs_sub_x_le_distance q) hd
  have hy : |p.y - q.y| ≤ h.cell_size := le_trans (p.abs_sub_y_le_distance q) hd
  have hfx := floor_div_close hs hx
  have hfy := floor_div_close hs hy
  simp only [SpatialHash.get_nearby, List.mem_flatMap]
  refine ⟨⌊q.x / h.cell_size⌋ - ⌊p.x / h.cell_size⌋, ?_,
    ⌊q.y / h.cell_size⌋ - ⌊p.y / h.cell_size⌋, ?_, ?_⟩
  · have hdx : ⌊q.x / h.cell_size⌋ - ⌊p.x / h.cell_size⌋ = -1 ∨
        ⌊q.x / h.cell_size⌋ - ⌊p.x / h.cell_size⌋ = 0 ∨
        ⌊q.x / h.cell_size⌋ - ⌊p.x / h.cell_size⌋ = 1 := by omega
    rcases hdx with h1 | h1 | h1 <;> rw [h1] <;> simp
  · have hdy : ⌊q.y / h.cell_size⌋ - ⌊p.y / h.cell_size⌋ = -1 ∨
        ⌊q.y / h.cell_size⌋ - ⌊p.y / h.cell_size⌋ = 0 ∨
        ⌊q.y / h.cell_size⌋ - ⌊p.y / h.cell_size⌋ = 1 := by omega
    rcases hdy with h1 | h1 | h1 <;> rw [h1] <;> simp
  · have e1 : (h.get_cell_coords p).1 + (⌊q.x / h.cell_size⌋ - ⌊p.x / h.cell_size⌋)
        = (h.get_cell_coords q).1 := by
      simp only [SpatialHash.get_cell_coords]
      omega
    have e2 : (h.get_cell_coords p).2 + (⌊q.y / h.cell_size⌋ - ⌊p.y / h.cell_size⌋)
        = (h.get_cell_coords q).2 := by
      simp only [SpatialHash.get_cell_coords]
      omega
    rw [e1, e2]
    exact hmem

/-- Any index returned by get_nearby lives in some cell. -/
lemma SpatialHash.get_nearby_mem_cells {h : SpatialHash} {p : Vec2} {idx : Nat}
    (hm : idx ∈ h.get_nearby p) : ∃ k, idx ∈ h.cells k := by
  unfold SpatialHash.get_nearby at hm
  simp only [List.mem_flatMap] at hm
  obtain ⟨dx, _, dy, _, hmem⟩ := hm
  exact ⟨_, hmem⟩

/-! ### BasicDistanceSimulation (simulation/basic_distance.rs) -/

/-- BasicDistanceSimulation (basic_distance.rs lines 31-38): the main
boundary particle and the Vec of contained particles (one in practice). -/
structure BasicDistanceSimulation where
  main_particle : Particle
  particles : List Particle

/-- BasicDistanceSimulation::update (basic_distance.rs lines 103-125):
moves the boundary to the mouse, then re-clamps particle 0 whenever its
vector to the mouse is longer than main.radius - ball.radius. Indexing
particles[0] on an empty Vec would panic in Rust; the model reads index 0
through getD with the Default particle, which no claim exercises. -/
def BasicDistanceSimulation.update (sim : BasicDistanceSimulation) (mouse_pos : Vec2) :
    BasicDistanceSimulation :=
  let main' : Particle := { sim.main_particle with pos := mouse_pos }
  let p0 := sim.particles.getD 0 default
  let to_mouse := mouse_pos - p0.pos
  let max_distance := main'.radius - p0.radius
  if to_mouse.length > max_distance then
    { main_particle := main',
      particles := sim.particles.set 0
        { p0 with pos := ConstraintResolver.distance p0.pos mouse_pos max_distance } }
  else
    { main_particle := main', particles := sim.particles }

/-! ### Shared pairwise separation (separate_collision.rs lines 201-219,
distance_chain.rs lines 229-243: the chain collision pass uses the same
algorithm, as its source comment notes) -/

/-- One pairwise overlap correction: when the center distance is at most
the radius sum, both particles move by half the overlap-resolving offset in
opposite directions. -/
def separatePair (a b : Particle) : Particle × Particle :=
  let to_other := b.pos - a.pos
  let min_dist := a.radius + b.radius
  if to_other.length ≤ min_dist then
    let corrected := to_other.with_length min_dist
    let offset := b.pos - a.pos - corrected
    let half_offset := offset / (2 : ℝ)
    ({ a with pos := a.pos + half_offset }, { b with pos := b.pos - half_offset })
  else
    (a, b)

/-- Applies separatePair to elements i and j of the particle list (both
reads and both writes at the current state, like the in-place Rust code).
Out-of-range indices leave the list unchanged; the call sites only produce
in-range pairs. -/
def collidePairStep (ps : List Particle) (i j : Nat) : List Particle :=
  match ps.get? i, ps.get? j with
  | some a, some b =>
    let ab := separatePair a b
    (ps.set i ab.1).set j ab.2
  | _, _ => ps

/-! ### DistanceChainSimulation (simulation/distance_chain.rs) -/

/-- The chain forward propagation (distance_chain.rs lines 180-190): for
each particle in order, resolve it at link_distance against the
already-updated position of its predecessor (prev). -/
def propagate (prev : Vec2) (d : ℝ) : List Particle → List Particle
  | [] => []
  | p :: rest =>
    let p' : Particle := { p with pos := ConstraintResolver.distance p.pos prev d }
    p' :: propagate p'.pos d rest

/-- The FABRIK backward pass (distance_chain.rs lines 201-216): the last
particle is pinned to the anchor, then indices n-1 down to 1 resolve
particle i-1 against the current position of particle i. Reversing the
list turns this tail-to-head loop into the same head-to-tail propagation:
with q = l.reverse, step i of the source (resolving p[i-1] against the
updated p[i]) is the step of propagate that resolves q[k+1] against the
updated q[k] for k = n-1-i, so the source loop is exactly propagate on the
reversed tail, un-reversed at the end. -/
def backwardPass (anchor : Vec2) (d : ℝ) (l : List Particle) : List Particle :=
  match l.reverse with
  | [] => []
  | q0 :: qrest => (({ q0 with pos := anchor } : Particle) :: propagate anchor d qrest).reverse

/-- The chain collision pass (distance_chain.rs lines 224-246): the double
loop over all index pairs i < j in ascending order, applying the pairwise
separation in place. -/
def collisionPass (ps : List Particle) : List Particle :=
  ((List.range ps.length).flatMap fun i =>
    ((List.range ps.length).filter fun j => i < j).map fun j => (i, j)).foldl
    (fun cur ij => collidePairStep cur ij.1 ij.2) ps

/-- DistanceChainSimulation (distance_chain.rs lines 45-63). -/
structure DistanceChainSimulation where
  main_particle : Particle
  particles : List Particle
  link_distance : ℝ
  use_fabrik : Bool
  ball_collision : Bool
  anchor_pos : Vec2

/-- DistanceChainSimulation::update (distance_chain.rs lines 158-253):
empty guard, mouse pin of particle 0, forward pass, optional FABRIK
backward pass, optional collision pass, and finally the main particle
mirrors particle 0. -/
def DistanceChainSimulation.update (sim : DistanceChainSimulation) (mouse_pos : Vec2) :
    DistanceChainSimulation :=
  match sim.particles with
  | [] => sim
  | p0 :: rest =>
    let p0' : Particle := { p0 with pos := mouse_pos }
    let afterForward := p0' :: propagate p0'.pos sim.link_distance rest
    let afterBackward :=
      if sim.use_fabrik then backwardPass sim.anchor_pos sim.link_distance afterForward
      else afterForward
    let afterCollision :=
      if sim.ball_collision then collisionPass afterBackward else afterBackward
    { sim with
      particles := afterCollision,
      main_particle := { sim.main_particle with pos := (afterCollision.headD default).pos } }

/-! ### SeparateCollisionSimulation (simulation/separate_collision.rs) -/

/-- SeparateCollisionSimulation (separate_collision.rs lines 39-52). -/
structure SeparateCollisionSimulation where
  main_particle : Particle
  particles : List Particle
  iterations : Nat
  ball_radius : ℝ

/-- The grid build of one solver iteration (separate_collision.rs lines
174-184): a hash with cells of size 2 * ball_radius, repopulated from the
current positions (clearing and refilling the reused map equals building
a fresh one in this model). -/
def buildHash (cellSize : ℝ) (ps : List Particle) : SpatialHash :=
  ps.enum.foldl (fun h ip => h.insert ip.1 ip.2.pos) (SpatialHash.new cellSize)

/-- The neighbor-query loop of one solver iteration (separate_collision.rs
lines 186-221): for every index i, query the 3x3 neighborhood at the
current position of particle i, then correct every returned pair with
j > i in place. -/
def collideNeighbors (hash : SpatialHash) (ps : List Particle) : List Particle :=
  (List.range ps.length).foldl
    (fun cur i =>
      (hash.get_nearby (cur.getD i default).pos).foldl
        (fun cur2 j => if j ≤ i then cur2 else collidePairStep cur2 i j) cur)
    ps

/-- SeparateCollisionSimulation::update (separate_collision.rs lines
139-223): move the boundary to the mouse, push every particle out of the
boundary circle, then run iterations rounds of grid rebuild plus pairwise
separation. -/
def SeparateCollisionSimulation.update (sim : SeparateCollisionSimulation)
    (mouse_pos : Vec2) : SeparateCollisionSimulation :=
  let main' : Particle := { sim.main_particle with pos := mouse_pos }
  let pushed := sim.particles.map fun p =>
    let to_particle := main'.pos - p.pos
    let min_distance := main'.radius + p.radius
    if to_particle.length < min_distance then
      { p with pos := p.pos + (main'.pos - p.pos - to_particle.with_length min_distance) }
    else p
  let round := fun ps => collideNeighbors (buildHash (sim.ball_radius * 2) ps) ps
  { sim with main_particle := main', particles := round^[sim.iterations] pushed }

/-! ### Generic list helpers -/

/-- A fold whose step fixes the accumulator on every list element is the
identity. -/
lemma foldl_fix_of_mem {α β : Type} {f : α → β → α} {c : α} :
    ∀ {l : List β}, (∀ x ∈ l, f c x = c) → l.foldl f c = c := by
  intro l
  induction l with
  | nil => intro _; rfl
  | cons x t ih =>
    intro hfix
    have hx : f c x = c := hfix x (by simp)
    rw [List.foldl_cons, hx]
    exact ih fun y hy => hfix y (by simp [hy])

/-- A fold over indices 0 and 1 where index 0 is inert, index 1 maps the
start state to the target, and the target absorbs both indices, ends at
the target as soon as a 1 occurs. -/
lemma foldl_absorb01 {α : Type} {g : α → Nat → α} {s t : α}
    (hs0 : g s 0 = s) (hs1 : g s 1 = t) (ht0 : g t 0 = t) (ht1 : g t 1 = t) :
    ∀ {l : List Nat}, (∀ j ∈ l, j = 0 ∨ j = 1) → 1 ∈ l → l.foldl g s = t := by
  intro l
  induction l with
  | nil => intro _ h1; simp at h1
  | cons x xs ih =>
    intro hsub h1
    have hxs : ∀ j ∈ xs, j = 0 ∨ j = 1 := fun j hj => hsub j (by simp [hj])
    rcases hsub x (by simp) with hx | hx
    · subst hx
      rw [List.foldl_cons, hs0]
      exact ih hxs (by simpa using h1)
    · subst hx
      rw [List.foldl_cons, hs1]
      exact foldl_fix_of_mem fun j hj => (hxs j hj).elim (fun e => e ▸ ht0) (fun e => e ▸ ht1)

/-- The last element of a list ending in a singleton. -/
lemma getLastD_concat_eq {α : Type} (l : List α) (a fb : α) :
    (l ++ [a]).getLastD fb = a := by
  induction l with
  | nil => rfl
  | cons x t ih =>
    cases t with
    | nil => rfl
    | cons y u => simpa using ih

/-! ### Chain link predicates -/

/-- All consecutive links of the list, starting from the virtual
predecessor position prev, are at distance d. -/
def chainLinkedFrom (d : ℝ) (prev : Vec2) : List Particle → Prop
  | [] => True
  | p :: rest => p.pos.distance prev = d ∧ chainLinkedFrom d p.pos rest

/-- For every i in 1..M-1, particle i is at distance d from particle i-1. -/
def chainLinked (d : ℝ) : List Particle → Prop
  | [] => True
  | p :: rest => chainLinkedFrom d p.pos rest

/-- The degenerate-resolve-free condition along the forward pass: no
pre-update position coincides exactly with the already-updated position of
its predecessor. -/
def degenerateFree (d : ℝ) (prev : Vec2) : List Particle → Prop
  | [] => True
  | p :: rest =>
    p.pos ≠ prev ∧ degenerateFree d (ConstraintResolver.distance p.pos prev d) rest

/-- The forward propagation places every link at exactly distance d from
its predecessor, provided d is nonnegative and no degenerate coincidence
occurs. -/
lemma propagate_chainLinkedFrom {d : ℝ} (hd : 0 ≤ d) :
    ∀ (l : List Particle) (prev : Vec2), degenerateFree d prev l →
      chainLinkedFrom d prev (propagate prev d l) := by
  intro l
  induction l with
  | nil => intro prev _; trivial
  | cons p rest ih =>
    intro prev hfree
    obtain ⟨hne, hfree2⟩ := hfree
    constructor
    · rw [show ({ p with pos := ConstraintResolver.distance p.pos prev d } : Particle).pos
          = ConstraintResolver.distance p.pos prev d from rfl]
      rw [ConstraintResolver.distance_dist p.pos prev d hne]
      exact abs_of_nonneg hd
    · exact ih _ hfree2

/-! ### Zero-vector facts -/

@[simp] lemma Vec2.length_zero : Vec2.ZERO.length = 0 := by
  simp [Vec2.length]

@[simp] lemma Vec2.with_length_zero (s : ℝ) : Vec2.ZERO.with_length s = Vec2.ZERO := by
  unfold Vec2.with_length
  rw [if_neg]
  simp

@[simp] lemma Vec2.sub_self_vec (a : Vec2) : a - a = Vec2.ZERO := by ext <;> simp

@[simp] lemma Vec2.sub_zero_vec (a : Vec2) : a - Vec2.ZERO = a := by ext <;> simp

@[simp] lemma Vec2.add_zero_vec (a : Vec2) : a + Vec2.ZERO = a := by ext <;> simp

@[simp] lemma Vec2.zero_div_scalar (s : ℝ) : Vec2.ZERO / s = Vec2.ZERO := by ext <;> simp

/-- Two particles at exactly the same position produce a zero correction:
with_length of the zero vector is the zero vector, so the pair is
returned unchanged. -/
lemma separatePair_same_pos (a b : Particle) (h : a.pos = b.pos) :
    separatePair a b = (a, b) := by
  have hz : b.pos - a.pos = Vec2.ZERO := by rw [← h]; simp
  by_cases hc : (0:ℝ) ≤ a.radius + b.radius
  · simp only [separatePair, hz, Vec2.length_zero, Vec2.with_length_zero,
      Vec2.sub_zero_vec, Vec2.zero_div_scalar, Vec2.add_zero_vec, if_pos hc]
  · simp only [separatePair, hz, Vec2.length_zero]
    rw [if_neg hc]

/-! ### Claim theorems -/

/-- C7: degenerate resolve. For every anchor vector and every distance
value, ConstraintResolver::distance(anchor, anchor, d) returns exactly the
anchor: the zero-length direction normalizes to the zero vector instead of
dividing by zero. In this real-number model no NaN can arise. -/
theorem resolve_degenerate (anchor : Vec2) (d : ℝ) :
    ConstraintResolver.distance anchor anchor d = anchor :=
  ConstraintResolver.distance_self anchor d

/-- C9: empty chain is a no-op. For a DistanceChainSimulation with an
empty particle list, update returns with the whole state (including the
main particle) unchanged, for every cursor position. -/
theorem empty_chain_noop (sim : DistanceChainSimulation) (mouse : Vec2)
    (h : sim.particles = []) : sim.update mouse = sim := by
  obtain ⟨m, ps, d, f, b, a⟩ := sim
  simp only at h
  subst h
  rfl

def emptyChainSim : DistanceChainSimulation :=
  ⟨default, [], 30, false, false, Vec2.ZERO⟩

/-- Witness for C9 at a concrete empty simulation and cursor. -/
theorem empty_chain_noop_witness :
    DistanceChainSimulation.update emptyChainSim ⟨3, 4⟩ = emptyChainSim :=
  empty_chain_noop emptyChainSim ⟨3, 4⟩ rfl

/-- C10: coincident-pair no-op. When the two particles of a pairwise
separation step (shared by SeparateCollisionSimulation and the chain
collision pass) occupy exactly the same position, the correction offset is
zero - with_length of the zero vector is the zero vector - and both
particles are returned unchanged; in the real-number model no NaN arises
and no separation occurs. -/
theorem coincident_pair_noop (a b : Particle) (h : a.pos = b.pos) :
    separatePair a b = (a, b) :=
  separatePair_same_pos a b h

/-- Witness for C10 at a concrete coincident pair. -/
theorem coincident_pair_noop_witness :
    separatePair ⟨⟨1, 2⟩, 5⟩ ⟨⟨1, 2⟩, 3⟩ = (⟨⟨1, 2⟩, 5⟩, ⟨⟨1, 2⟩, 3⟩) :=
  coincident_pair_noop ⟨⟨1, 2⟩, 5⟩ ⟨⟨1, 2⟩, 3⟩ rfl

/-- toI64 is the identity on values already inside the i64 range. -/
lemma toI64_eq_self {n : Int} (h1 : -(2 ^ 63) ≤ n) (h2 : n < 2 ^ 63) : toI64 n = n := by
  unfold toI64
  have hmod : (n + 2 ^ 63) % 2 ^ 64 = n + 2 ^ 63 :=
    Int.emod_eq_of_lt (by omega) (by omega)
  omega

/-- C8: cell-key injectivity. The packing
get_cell_key(cx, cy) = ((cx as i64) << 32) | ((cy as i64) & 0xFFFFFFFF)
is injective on pairs of 32-bit signed cell coordinates: equal keys force
equal coordinate pairs, so no two distinct cells collide in the map. -/
theorem cell_key_injective (cx cy cx2 cy2 : Int)
    (hx1 : -(2 ^ 31) ≤ cx) (hx2 : cx < 2 ^ 31)
    (hy1 : -(2 ^ 31) ≤ cy) (hy2 : cy < 2 ^ 31)
    (hx3 : -(2 ^ 31) ≤ cx2) (hx4 : cx2 < 2 ^ 31)
    (hy3 : -(2 ^ 31) ≤ cy2) (hy4 : cy2 < 2 ^ 31)
    (hkey : SpatialHash.get_cell_key cx cy = SpatialHash.get_cell_key cx2 cy2) :
    cx = cx2 ∧ cy = cy2 := by
  unfold SpatialHash.get_cell_key at hkey
  have m1 : 0 ≤ cy % 2 ^ 32 := Int.emod_nonneg cy (by norm_num)
  have m2 : cy % 2 ^ 32 < 2 ^ 32 := Int.emod_lt_of_pos cy (by norm_num)
  have m3 : 0 ≤ cy2 % 2 ^ 32 := Int.emod_nonneg cy2 (by norm_num)
  have m4 : cy2 % 2 ^ 32 < 2 ^ 32 := Int.emod_lt_of_pos cy2 (by norm_num)
  rw [toI64_eq_self (by omega) (by omega), toI64_eq_self (by omega) (by omega)] at hkey
  omega

/-- Witness for C8 at concrete coordinates. -/
theorem cell_key_injective_witness : (3 : Int) = 3 ∧ (5 : Int) = 5 :=
  cell_key_injective 3 5 3 5 (by norm_num) (by norm_num) (by norm_num) (by norm_num)
    (by norm_num) (by norm_num) (by norm_num) (by norm_num) rfl

lemma length_six_zero : (Vec2.mk 6 0).length = 6 := by
  rw [Vec2.length_mk]
  exact sqrt_eval (by norm_num) (by norm_num)

/-- Shared evaluation of the pair correction on the radius-5 particles at
(0,0) and (6,0): overlap 4, each moves 2 along the x-axis. -/
lemma separatePair_six :
    separatePair ⟨⟨0, 0⟩, 5⟩ ⟨⟨6, 0⟩, 5⟩ = (⟨⟨-2, 0⟩, 5⟩, ⟨⟨8, 0⟩, 5⟩) := by
  have h1 : (Vec2.mk 6 0) - Vec2.mk 0 0 = Vec2.mk 6 0 := by ext <;> simp
  have h3 : (Vec2.mk 6 0).with_length (5 + 5) = Vec2.mk 10 0 := by
    unfold Vec2.with_length
    rw [length_six_zero, if_pos (by norm_num)]
    ext <;> norm_num
  simp only [separatePair, h1, length_six_zero, h3]
  rw [if_pos (by norm_num : (6:ℝ) ≤ 5 + 5)]
  have e1 : Vec2.mk 6 0 - Vec2.mk 10 0 = Vec2.mk (-4) 0 := by ext <;> norm_num
  rw [e1]
  have e2 : Vec2.mk (-4) 0 / (2:ℝ) = Vec2.mk (-2) 0 := by ext <;> norm_num
  rw [e2]
  have e3 : Vec2.mk 0 0 + Vec2.mk (-2) 0 = Vec2.mk (-2) 0 := by ext <;> norm_num
  have e4 : Vec2.mk 6 0 - Vec2.mk (-2) 0 = Vec2.mk 8 0 := by ext <;> norm_num
  rw [e3, e4]

/-- C6: concrete pairwise-separation scenario. Two particles of radius 5
at (0,0) and (6,0) run through one pairwise correction move by exactly 2
units each along the x-axis in opposite directions, ending at (-2,0) and
(8,0) at pairwise distance exactly 10. -/
theorem separation_concrete_scenario :
    separatePair ⟨⟨0, 0⟩, 5⟩ ⟨⟨6, 0⟩, 5⟩ = (⟨⟨-2, 0⟩, 5⟩, ⟨⟨8, 0⟩, 5⟩) ∧
    Vec2.distance ⟨-2, 0⟩ ⟨8, 0⟩ = 10 := by
  refine ⟨separatePair_six, ?_⟩
  unfold Vec2.distance
  have e5 : Vec2.mk (-2) 0 - Vec2.mk 8 0 = Vec2.mk (-10) 0 := by ext <;> norm_num
  rw [e5, Vec2.length_mk]
  exact sqrt_eval (by norm_num) (by norm_num)

/-- C1: grid completeness, no false negatives. For any grid state and any
two particles i at pa and j at pb inserted at their current positions, if
their distance is at most the radius sum and the radius sum is at most
cell_size (positive, per the constructor contract of spec section 4.1),
then the 3x3-neighborhood query at either position returns the other
index. -/
theorem grid_completeness (h : SpatialHash) (i j : Nat) (pa pb : Vec2) (ra rb : ℝ)
    (hs : 0 < h.cell_size) (hd : pa.distance pb ≤ ra + rb) (hc : ra + rb ≤ h.cell_size) :
    j ∈ ((h.insert i pa).insert j pb).get_nearby pa ∧
    i ∈ ((h.insert i pa).insert j pb).get_nearby pb := by
  have hsH : 0 < ((h.insert i pa).insert j pb).cell_size := hs
  have hdist : pa.distance pb ≤ ((h.insert i pa).insert j pb).cell_size :=
    le_trans hd hc
  constructor
  · exact SpatialHash.mem_get_nearby hsH hdist
      (SpatialHash.mem_insert_self (h.insert i pa) j pb)
  · have hdist2 : pb.distance pa ≤ ((h.insert i pa).insert j pb).cell_size := by
      rwa [Vec2.distance_comm]
    exact SpatialHash.mem_get_nearby hsH hdist2
      (SpatialHash.mem_insert_of_mem (SpatialHash.mem_insert_self h i pa) j pb)

/-- Witness for C1 at a concrete grid, positions and radii. -/
theorem grid_completeness_witness :
    1 ∈ (((SpatialHash.new 20).insert 0 ⟨0, 0⟩).insert 1 ⟨6, 0⟩).get_nearby ⟨0, 0⟩ ∧
    0 ∈ (((SpatialHash.new 20).insert 0 ⟨0, 0⟩).insert 1 ⟨6, 0⟩).get_nearby ⟨6, 0⟩ := by
  have hdc : Vec2.distance ⟨0, 0⟩ ⟨6, 0⟩ = 6 := by
    unfold Vec2.distance
    rw [show (Vec2.mk 0 0) - Vec2.mk 6 0 = Vec2.mk (-6) 0 by ext <;> norm_num,
      Vec2.length_mk]
    exact sqrt_eval (by norm_num) (by norm_num)
  exact grid_completeness (SpatialHash.new 20) 0 1 ⟨0, 0⟩ ⟨6, 0⟩ 5 5 (by norm_num)
    (by rw [hdc]; norm_num) (by norm_num)

def simC2 : BasicDistanceSimulation := ⟨⟨⟨0, 0⟩, 1⟩, [⟨⟨0, 0⟩, 2⟩]⟩

/-- C2 counterexample: with a contained particle (radius 2) larger than
the boundary (radius 1), after update the distance to the cursor is 0,
which is not at most boundary.radius - particle.radius = -1. The claim as
stated, for every particle and boundary radius, is therefore false. -/
theorem containment_radius_counterexample :
    ¬ ((((BasicDistanceSimulation.update simC2 ⟨0, 0⟩).particles.getD 0 default).pos).distance
        ⟨0, 0⟩
      ≤ simC2.main_particle.radius - (simC2.particles.getD 0 default).radius) := by
  have hres : ConstraintResolver.distance ⟨0, 0⟩ ⟨0, 0⟩ ((1:ℝ) - 2) = ⟨0, 0⟩ :=
    ConstraintResolver.distance_self _ _
  unfold BasicDistanceSimulation.update simC2
  simp only [List.getD_cons_zero]
  rw [if_pos]
  · simp only [List.set_cons_zero, List.getD_cons_zero, hres]
    simp only [Vec2.distance, Vec2.sub_self_vec, Vec2.length_zero]
    norm_num
  · simp only [Vec2.sub_self_vec, Vec2.length_zero]
    norm_num

/-- C2 (amended): for every BasicDistanceSimulation whose contained
particle is no larger than the boundary (particle.radius at most
main.radius - without this the re-clamp lands at distance
particle.radius - main.radius, violating the bound, see the
counterexample) and a nonempty particle list, after update the distance
from the contained particle to the cursor is at most
main.radius - particle.radius, with exact equality whenever the correction
fired. -/
theorem containment_invariant (sim : BasicDistanceSimulation) (mouse : Vec2)
    (hne : sim.particles ≠ [])
    (hr : (sim.particles.getD 0 default).radius ≤ sim.main_particle.radius) :
    (((sim.update mouse).particles.getD 0 default).pos).distance mouse
      ≤ sim.main_particle.radius - (sim.particles.getD 0 default).radius ∧
    ((mouse - (sim.particles.getD 0 default).pos).length
        > sim.main_particle.radius - (sim.particles.getD 0 default).radius →
      (((sim.update mouse).particles.getD 0 default).pos).distance mouse
        = sim.main_particle.radius - (sim.particles.getD 0 default).radius) := by
  obtain ⟨mp, ps⟩ := sim
  cases ps with
  | nil => exact absurd rfl hne
  | cons q t =>
    simp only [List.getD_cons_zero] at hr ⊢
    have hmax : 0 ≤ mp.radius - q.radius := by linarith
    unfold BasicDistanceSimulation.update
    simp only [List.getD_cons_zero]
    by_cases hfire : (mouse - q.pos).length > mp.radius - q.radius
    · rw [if_pos hfire]
      simp only [List.set_cons_zero, List.getD_cons_zero]
      have hqm : q.pos ≠ mouse := by
        intro he
        rw [he] at hfire
        simp only [Vec2.sub_self_vec, Vec2.length_zero] at hfire
        linarith
      have hdd := ConstraintResolver.distance_dist q.pos mouse (mp.radius - q.radius) hqm
      rw [abs_of_nonneg hmax] at hdd
      exact ⟨le_of_eq hdd, fun _ => hdd⟩
    · rw [if_neg hfire]
      simp only [List.getD_cons_zero]
      push_neg at hfire
      constructor
      · calc q.pos.distance mouse = (mouse - q.pos).length := Vec2.length_sub_comm _ _
        _ ≤ mp.radius - q.radius := hfire
      · intro hcon
        linarith

def simC2W : BasicDistanceSimulation := ⟨⟨⟨0, 0⟩, 50⟩, [⟨⟨0, 0⟩, 15⟩]⟩

/-- Witness for C2 at a concrete simulation with boundary radius 50,
particle radius 15 and a far cursor. -/
theorem containment_invariant_witness :
    (((BasicDistanceSimulation.update simC2W ⟨100, 0⟩).particles.getD 0 default).pos).distance
        ⟨100, 0⟩
      ≤ simC2W.main_particle.radius - (simC2W.particles.getD 0 default).radius ∧
    ((⟨100, 0⟩ - (simC2W.particles.getD 0 default).pos).length
        > simC2W.main_particle.radius - (simC2W.particles.getD 0 default).radius →
      (((BasicDistanceSimulation.update simC2W ⟨100, 0⟩).particles.getD 0 default).pos).distance
          ⟨100, 0⟩
        = simC2W.main_particle.radius - (simC2W.particles.getD 0 default).radius) :=
  containment_invariant simC2W ⟨100, 0⟩ (by simp [simC2W]) (by norm_num [simC2W])

def simC3 : DistanceChainSimulation :=
  ⟨default, [⟨⟨0, 0⟩, 15⟩, ⟨⟨7, 7⟩, 15⟩], 30, false, false, ⟨0, 0⟩⟩

/-- C3 counterexample: a two-link chain whose second particle already sits
exactly at the cursor. The forward pass resolves it against its own
position, the degenerate resolve collapses it onto link 0, and the link
distance after update is 0, not link_distance = 30. -/
theorem chain_degenerate_counterexample :
    ¬ chainLinked simC3.link_distance
      ((DistanceChainSimulation.update simC3 ⟨7, 7⟩).particles) := by
  have hres : ConstraintResolver.distance ⟨7, 7⟩ ⟨7, 7⟩ (30:ℝ) = ⟨7, 7⟩ :=
    ConstraintResolver.distance_self _ _
  have hupd : (DistanceChainSimulation.update simC3 ⟨7, 7⟩).particles
      = [⟨⟨7, 7⟩, 15⟩, ⟨⟨7, 7⟩, 15⟩] := by
    simp only [simC3, DistanceChainSimulation.update, propagate]
    simp [hres]
  intro hcl
  rw [hupd] at hcl
  have hld : simC3.link_distance = 30 := rfl
  rw [hld] at hcl
  simp only [chainLinked, chainLinkedFrom] at hcl
  obtain ⟨h1, -⟩ := hcl
  simp only [Vec2.distance, Vec2.sub_self_vec, Vec2.length_zero] at h1
  norm_num at h1

/-- C3 (amended): for every chain with the FABRIK backward pass and the
pairwise collision both disabled, a nonnegative link distance, and no
degenerate coincidence during the forward pass (no pre-update position
equal to the already-updated predecessor position - the counterexample
shows the exact-coincidence case collapses a link to distance 0), after
update every consecutive pair of particles is at distance exactly
link_distance. -/
theorem chain_link_invariant (sim : DistanceChainSimulation) (mouse : Vec2)
    (hf : sim.use_fabrik = false) (hc : sim.ball_collision = false)
    (hd : 0 ≤ sim.link_distance)
    (hfree : degenerateFree sim.link_distance mouse sim.particles.tail) :
    chainLinked sim.link_distance ((sim.update mouse).particles) := by
  obtain ⟨mp, ps, d, fb, bc, anc⟩ := sim
  simp only at hf hc hd hfree ⊢
  subst hf; subst hc
  cases ps with
  | nil =>
    simp [DistanceChainSimulation.update, chainLinked]
  | cons p0 rest =>
    simp only [List.tail_cons] at hfree
    simp only [DistanceChainSimulation.update, Bool.false_eq_true, if_false]
    simp only [chainLinked]
    exact propagate_chainLinkedFrom hd rest mouse hfree

def simC3W : DistanceChainSimulation :=
  ⟨default, [⟨⟨0, 0⟩, 5⟩, ⟨⟨3, 4⟩, 5⟩], 5, false, false, ⟨0, 0⟩⟩

/-- Witness for C3 at a concrete two-link chain with link distance 5 and a
nondegenerate configuration. -/
theorem chain_link_invariant_witness :
    chainLinked simC3W.link_distance
      ((DistanceChainSimulation.update simC3W ⟨0, 0⟩).particles) :=
  chain_link_invariant simC3W ⟨0, 0⟩ rfl rfl (by norm_num [simC3W])
    (by simp only [simC3W, List.tail_cons, degenerateFree]
        refine ⟨?_, trivial⟩
        intro he
        have := congrArg Vec2.x he
        norm_num at this)

/-- The backward pass pins the last particle of a nonempty list to the
anchor. -/
lemma backwardPass_getLastD (anchor : Vec2) (d : ℝ) (l : List Particle)
    (hl : l ≠ []) (fb : Particle) :
    ((backwardPass anchor d l).getLastD fb).pos = anchor := by
  unfold backwardPass
  cases hrev : l.reverse with
  | nil => exact absurd (List.reverse_eq_nil_iff.mp hrev) hl
  | cons q0 qrest =>
    show ((({ pos := anchor, radius := q0.radius } : Particle)
        :: propagate anchor d qrest).reverse.getLastD fb).pos = anchor
    rw [List.reverse_cons, getLastD_concat_eq]

/-- C4 (amended): when the FABRIK backward pass is enabled and the
pairwise collision pass is disabled, after update the last particle of a
nonempty chain sits exactly at the configured anchor position (the
counterexample shows an enabled collision pass can move it afterwards). -/
theorem fabrik_anchors_last (sim : DistanceChainSimulation) (mouse : Vec2)
    (hf : sim.use_fabrik = true) (hc : sim.ball_collision = false)
    (hne : sim.particles ≠ []) :
    ((sim.update mouse).particles.getLastD default).pos = sim.anchor_pos := by
  obtain ⟨mp, ps, d, fb, bc, anc⟩ := sim
  simp only at hf hc hne ⊢
  subst hf; subst hc
  cases ps with
  | nil => exact absurd rfl hne
  | cons p0 rest =>
    simp only [DistanceChainSimulation.update, Bool.false_eq_true, if_false, if_true]
    exact backwardPass_getLastD anc d _ (List.cons_ne_nil _ _) default

def simC4W : DistanceChainSimulation :=
  ⟨default, [⟨⟨0, 0⟩, 5⟩], 5, true, false, ⟨2, 3⟩⟩

/-- Witness for C4 at a concrete one-link chain with the backward pass
enabled and collision disabled. -/
theorem fabrik_anchors_last_witness :
    ((DistanceChainSimulation.update simC4W ⟨9, 9⟩).particles.getLastD default).pos
      = simC4W.anchor_pos :=
  fabrik_anchors_last simC4W ⟨9, 9⟩ rfl rfl (by simp [simC4W])

lemma length_neg_six_zero : (Vec2.mk (-6) 0).length = 6 := by
  rw [Vec2.length_mk]
  exact sqrt_eval (by norm_num) (by norm_num)

lemma resolve_six_zero : ConstraintResolver.distance ⟨6, 0⟩ ⟨0, 0⟩ (6:ℝ) = ⟨6, 0⟩ := by
  show (Vec2.mk 6 0 - Vec2.mk 0 0).normalize * (6:ℝ) + Vec2.mk 0 0 = Vec2.mk 6 0
  have h1 : (Vec2.mk 6 0) - Vec2.mk 0 0 = Vec2.mk 6 0 := by ext <;> simp
  rw [h1]
  have h2 : (Vec2.mk 6 0).normalize = ⟨1, 0⟩ := by
    unfold Vec2.normalize
    rw [length_six_zero, if_pos (by norm_num)]
    ext <;> norm_num
  rw [h2]
  ext <;> norm_num

lemma resolve_zero_six : ConstraintResolver.distance ⟨0, 0⟩ ⟨6, 0⟩ (6:ℝ) = ⟨0, 0⟩ := by
  show (Vec2.mk 0 0 - Vec2.mk 6 0).normalize * (6:ℝ) + Vec2.mk 6 0 = Vec2.mk 0 0
  have h1 : (Vec2.mk 0 0) - Vec2.mk 6 0 = Vec2.mk (-6) 0 := by ext <;> norm_num
  rw [h1]
  have h2 : (Vec2.mk (-6) 0).normalize = ⟨-1, 0⟩ := by
    unfold Vec2.normalize
    rw [length_neg_six_zero, if_pos (by norm_num)]
    ext <;> norm_num
  rw [h2]
  ext <;> norm_num

def simC4 : DistanceChainSimulation :=
  ⟨default, [⟨⟨0, 0⟩, 5⟩, ⟨⟨6, 0⟩, 5⟩], 6, true, true, ⟨6, 0⟩⟩

/-- C4 counterexample: with the backward pass and the collision pass both
enabled, the collision pass runs after the anchoring and pushes the last
particle from the anchor (6,0) to (8,0), so the claim as stated over every
chain with use_backward_pass enabled is false. -/
theorem fabrik_anchor_collision_counterexample :
    ((DistanceChainSimulation.update simC4 ⟨0, 0⟩).particles.getLastD default).pos
      ≠ simC4.anchor_pos := by
  have hupd : (DistanceChainSimulation.update simC4 ⟨0, 0⟩).particles
      = [⟨⟨-2, 0⟩, 5⟩, ⟨⟨8, 0⟩, 5⟩] := by
    simp [simC4, DistanceChainSimulation.update, propagate, backwardPass,
      collisionPass, collidePairStep, resolve_six_zero, resolve_zero_six,
      separatePair_six, List.range_succ]
  rw [hupd]
  intro he
  have := congrArg Vec2.x he
  norm_num [simC4] at this

/-- Pushing a particle that sits exactly at the boundary center is a
no-op: the zero direction gives a zero correction offset. -/
lemma push_coincident (mp : Vec2) (p : Particle) (h : p.pos = mp) (mr : ℝ) :
    (if (mp - p.pos).length < mr + p.radius then
      ({ p with pos := p.pos + (mp - p.pos - (mp - p.pos).with_length (mr + p.radius)) } : Particle)
    else p) = p := by
  subst h
  simp only [Vec2.sub_self_vec, Vec2.length_zero, Vec2.with_length_zero,
    Vec2.sub_zero_vec, Vec2.add_zero_vec]
  split <;> rfl

def simC5 : SeparateCollisionSimulation :=
  ⟨⟨⟨0, 0⟩, 50⟩, [⟨⟨0, 0⟩, 5⟩, ⟨⟨0, 0⟩, 5⟩], 1, 5⟩

/-- C5 counterexample: a coincident colliding pair (distance 0, radius sum
10). The zero-direction correction moves nothing, so after one update the
pairwise distance is still 0: it did not strictly increase, refuting the
claim for arbitrary colliding pairs. -/
theorem separation_coincident_counterexample :
    (((SeparateCollisionSimulation.update simC5 ⟨0, 0⟩).particles.getD 0 default).pos).distance
        (((SeparateCollisionSimulation.update simC5 ⟨0, 0⟩).particles.getD 1 default).pos) = 0 ∧
    ¬ ((((simC5.particles.getD 0 default).pos).distance ((simC5.particles.getD 1 default).pos))
        < (((SeparateCollisionSimulation.update simC5 ⟨0, 0⟩).particles.getD 0 default).pos).distance
          (((SeparateCollisionSimulation.update simC5 ⟨0, 0⟩).particles.getD 1 default).pos)) := by
  have hsp : separatePair (⟨⟨0, 0⟩, 5⟩ : Particle) ⟨⟨0, 0⟩, 5⟩
      = (⟨⟨0, 0⟩, 5⟩, ⟨⟨0, 0⟩, 5⟩) := separatePair_same_pos _ _ rfl
  have hstep : ∀ (i j : Nat),
      collidePairStep [⟨⟨0, 0⟩, 5⟩, ⟨⟨0, 0⟩, 5⟩] i j = [⟨⟨0, 0⟩, 5⟩, ⟨⟨0, 0⟩, 5⟩] := by
    intro i j
    rcases i with _ | _ | i <;> rcases j with _ | _ | j <;>
      simp [collidePairStep, hsp, List.set]
  have hcoll : ∀ hash : SpatialHash,
      collideNeighbors hash [⟨⟨0, 0⟩, 5⟩, ⟨⟨0, 0⟩, 5⟩] = [⟨⟨0, 0⟩, 5⟩, ⟨⟨0, 0⟩, 5⟩] := by
    intro hash
    unfold collideNeighbors
    apply foldl_fix_of_mem
    intro i _
    apply foldl_fix_of_mem
    intro j _
    by_cases hij : j ≤ i
    · rw [if_pos hij]
    · rw [if_neg hij, hstep]
  have hupd : (SeparateCollisionSimulation.update simC5 ⟨0, 0⟩).particles
      = [⟨⟨0, 0⟩, 5⟩, ⟨⟨0, 0⟩, 5⟩] := by
    simp only [SeparateCollisionSimulation.update, simC5, List.map_cons, List.map_nil]
    rw [push_coincident ⟨0, 0⟩ ⟨⟨0, 0⟩, 5⟩ rfl 50]
    rw [Function.iterate_one]
    exact hcoll _
  rw [hupd]
  simp only [List.getD_cons_zero, List.getD_cons_succ, simC5]
  simp only [Vec2.distance, Vec2.sub_self_vec, Vec2.length_zero]
  exact ⟨trivial, by norm_num⟩

lemma Vec2.with_length_eq_self (v : Vec2) (s : ℝ) (hv : v ≠ Vec2.ZERO)
    (h : v.length = s) : v.with_length s = v := by
  rw [← h]
  exact Vec2.with_length_self v hv

/-- Abbreviation for the post-correction position of the lower-index
particle of a colliding pair (both particles of radius r). -/
def pairSepA (a b : Vec2) (r : ℝ) : Vec2 :=
  a + (b - a - (b - a).with_length (r + r)) / (2:ℝ)

/-- Abbreviation for the post-correction position of the higher-index
particle of a colliding pair (both particles of radius r). -/
def pairSepB (a b : Vec2) (r : ℝ) : Vec2 :=
  b - (b - a - (b - a).with_length (r + r)) / (2:ℝ)

lemma sepPair_fire (a b : Vec2) (r : ℝ) (hcol : (b - a).length ≤ r + r) :
    separatePair ⟨a, r⟩ ⟨b, r⟩ = (⟨pairSepA a b r, r⟩, ⟨pairSepB a b r, r⟩) := by
  simp only [separatePair, pairSepA, pairSepB]
  rw [if_pos hcol]

/-- The separated pair is a fixed point of the pair correction: the
recheck fires at exact contact but computes a zero offset. -/
lemma sepPair_refire (a b : Vec2) (r : ℝ) (hrr : 0 < r + r) (hba : b - a ≠ Vec2.ZERO) :
    separatePair ⟨pairSepA a b r, r⟩ ⟨pairSepB a b r, r⟩
      = (⟨pairSepA a b r, r⟩, ⟨pairSepB a b r, r⟩) := by
  have hdiff : pairSepB a b r - pairSepA a b r = (b - a).with_length (r + r) := by
    unfold pairSepA pairSepB
    ext <;> simp <;> ring
  have hclen : ((b - a).with_length (r + r)).length = r + r := by
    rw [Vec2.with_length_length _ _ hba, abs_of_nonneg (le_of_lt hrr)]
  have hcne : (b - a).with_length (r + r) ≠ Vec2.ZERO := by
    intro hz
    rw [hz, Vec2.length_zero] at hclen
    linarith
  have hwl : ((b - a).with_length (r + r)).with_length (r + r) = (b - a).with_length (r + r) :=
    Vec2.with_length_eq_self _ _ hcne hclen
  simp only [separatePair]
  rw [hdiff, hclen, if_pos (le_refl (r + r)), hwl, Vec2.sub_self_vec,
    Vec2.zero_div_scalar, Vec2.add_zero_vec, Vec2.sub_zero_vec]

lemma collidePairStep_pair_fire (a b : Vec2) (r : ℝ) (hcol : (b - a).length ≤ r + r) :
    collidePairStep [⟨a, r⟩, ⟨b, r⟩] 0 1
      = [⟨pairSepA a b r, r⟩, ⟨pairSepB a b r, r⟩] := by
  unfold collidePairStep
  rw [show ([⟨a, r⟩, ⟨b, r⟩] : List Particle).get? 0 = some ⟨a, r⟩ from rfl,
    show ([⟨a, r⟩, ⟨b, r⟩] : List Particle).get? 1 = some ⟨b, r⟩ from rfl]
  simp only [sepPair_fire a b r hcol, List.set]

lemma collidePairStep_pair_refire (a b : Vec2) (r : ℝ) (hrr : 0 < r + r)
    (hba : b - a ≠ Vec2.ZERO) :
    collidePairStep [⟨pairSepA a b r, r⟩, ⟨pairSepB a b r, r⟩] 0 1
      = [⟨pairSepA a b r, r⟩, ⟨pairSepB a b r, r⟩] := by
  unfold collidePairStep
  rw [show ([⟨pairSepA a b r, r⟩, ⟨pairSepB a b r, r⟩] : List Particle).get? 0
      = some ⟨pairSepA a b r, r⟩ from rfl,
    show ([⟨pairSepA a b r, r⟩, ⟨pairSepB a b r, r⟩] : List Particle).get? 1
      = some ⟨pairSepB a b r, r⟩ from rfl]
  simp only [sepPair_refire a b r hrr hba, List.set]

/-- The neighbor-query pass on a two-particle colliding list: the pair is
corrected exactly once (found from particle 0 with j = 1; every other
combination is skipped by the j at most i rule or is a no-op recheck). -/
lemma collideNeighbors_pair (H : SpatialHash) (a b : Vec2) (r : ℝ)
    (hrr : 0 < r + r) (hba : b - a ≠ Vec2.ZERO) (hcol : (b - a).length ≤ r + r)
    (hnear : 1 ∈ H.get_nearby a)
    (hsub : ∀ (q : Vec2), ∀ j ∈ H.get_nearby q, j = 0 ∨ j = 1) :
    collideNeighbors H [⟨a, r⟩, ⟨b, r⟩]
      = [⟨pairSepA a b r, r⟩, ⟨pairSepB a b r, r⟩] := by
  unfold collideNeighbors
  rw [show ([⟨a, r⟩, ⟨b, r⟩] : List Particle).length = 2 from rfl,
    show List.range 2 = [0, 1] from rfl]
  rw [List.foldl_cons, List.foldl_cons, List.foldl_nil]
  have hgetd0 : (([⟨a, r⟩, ⟨b, r⟩] : List Particle).getD 0 default).pos = a := rfl
  rw [hgetd0]
  have hfold0 : (H.get_nearby a).foldl
      (fun cur2 j => if j ≤ 0 then cur2 else collidePairStep cur2 0 j)
      [⟨a, r⟩, ⟨b, r⟩] = [⟨pairSepA a b r, r⟩, ⟨pairSepB a b r, r⟩] := by
    apply foldl_absorb01
    · rw [if_pos (le_refl 0)]
    · rw [if_neg (by omega)]
      exact collidePairStep_pair_fire a b r hcol
    · rw [if_pos (Nat.zero_le 0)]
    · rw [if_neg (by omega)]
      exact collidePairStep_pair_refire a b r hrr hba
    · exact hsub a
    · exact hnear
  rw [hfold0]
  apply foldl_fix_of_mem
  intro j hj
  rcases hsub _ j hj with hj0 | hj1
  · rw [hj0, if_pos (by omega)]
  · rw [hj1, if_pos (le_refl 1)]

/-- The corrected pair sits at distance exactly r + r. -/
lemma pairSep_distance (a b : Vec2) (r : ℝ) (hrr : 0 < r + r)
    (hba : b - a ≠ Vec2.ZERO) :
    (pairSepA a b r).distance (pairSepB a b r) = r + r := by
  have hdiff : pairSepB a b r - pairSepA a b r = (b - a).with_length (r + r) := by
    unfold pairSepA pairSepB
    ext <;> simp <;> ring
  have hclen : ((b - a).with_length (r + r)).length = r + r := by
    rw [Vec2.with_length_length _ _ hba, abs_of_nonneg (le_of_lt hrr)]
  unfold Vec2.distance
  rw [Vec2.length_sub_comm, hdiff, hclen]

/-- The boundary push is a no-op on a particle at least mr + r away from
the boundary center. -/
lemma push_far2 (mp pa : Vec2) (r mr : ℝ) (hfar : mr + r ≤ (mp - pa).length) :
    (if (mp - pa).length < mr + r then
      ({ pos := pa + (mp - pa - (mp - pa).with_length (mr + r)), radius := r } : Particle)
    else ⟨pa, r⟩) = ⟨pa, r⟩ := if_neg (not_lt.mpr hfar)

/-- C5 (amended): for a SeparateCollisionSimulation holding exactly one
colliding pair (both of radius r, matching the ball_radius of the grid) at
strictly positive distance (the counterexample shows a coincident pair
stays put), with iterations = 1 and both particles far enough from the
cursor that the boundary push does not fire, one update moves the pair to
distance exactly r + r: the pairwise distance strictly increases up to the
radius sum, and in the real-number model no NaN or infinity can arise. -/
theorem separation_pair_separates (a b mpos mouse : Vec2) (r mr : ℝ)
    (hr : 0 < r)
    (hpos : 0 < a.distance b)
    (hcol : a.distance b < r + r)
    (hfa : mr + r ≤ (mouse - a).length)
    (hfb : mr + r ≤ (mouse - b).length) :
    (((SeparateCollisionSimulation.update ⟨⟨mpos, mr⟩, [⟨a, r⟩, ⟨b, r⟩], 1, r⟩
        mouse).particles.getD 0 default).pos).distance
      (((SeparateCollisionSimulation.update ⟨⟨mpos, mr⟩, [⟨a, r⟩, ⟨b, r⟩], 1, r⟩
        mouse).particles.getD 1 default).pos) = r + r ∧
    a.distance b <
      (((SeparateCollisionSimulation.update ⟨⟨mpos, mr⟩, [⟨a, r⟩, ⟨b, r⟩], 1, r⟩
        mouse).particles.getD 0 default).pos).distance
      (((SeparateCollisionSimulation.update ⟨⟨mpos, mr⟩, [⟨a, r⟩, ⟨b, r⟩], 1, r⟩
        mouse).particles.getD 1 default).pos) := by
  have hrr : (0:ℝ) < r + r := by linarith
  have hab : a ≠ b := by
    intro he
    rw [he] at hpos
    simp [Vec2.distance] at hpos
  have hba : b - a ≠ Vec2.ZERO := Vec2.sub_ne_zero (Ne.symm hab)
  have hlencol : (b - a).length ≤ r + r := by
    have he : (b - a).length = a.distance b := (Vec2.length_sub_comm a b).symm
    rw [he]
    exact le_of_lt hcol
  have hsize : (0:ℝ) < r * 2 := by linarith
  have hdistcell : a.distance b ≤ r * 2 := by linarith
  have hnear : 1 ∈ (((SpatialHash.new (r * 2)).insert 0 a).insert 1 b).get_nearby a :=
    SpatialHash.mem_get_nearby hsize hdistcell
      (SpatialHash.mem_insert_self ((SpatialHash.new (r * 2)).insert 0 a) 1 b)
  have hsub : ∀ (q : Vec2),
      ∀ j ∈ (((SpatialHash.new (r * 2)).insert 0 a).insert 1 b).get_nearby q,
        j = 0 ∨ j = 1 := by
    intro q j hj
    obtain ⟨k, hk⟩ := SpatialHash.get_nearby_mem_cells hj
    rcases SpatialHash.mem_insert_elim hk with hk2 | h1
    · rcases SpatialHash.mem_insert_elim hk2 with hk3 | h0
      · simp only [SpatialHash.new_cells] at hk3
        exact absurd hk3 (List.not_mem_nil j)
      · exact Or.inl h0
    · exact Or.inr h1
  have hupd : (SeparateCollisionSimulation.update ⟨⟨mpos, mr⟩, [⟨a, r⟩, ⟨b, r⟩], 1, r⟩
        mouse).particles
      = [⟨pairSepA a b r, r⟩, ⟨pairSepB a b r, r⟩] := by
    simp only [SeparateCollisionSimulation.update, List.map_cons, List.map_nil]
    rw [push_far2 mouse a r mr hfa, push_far2 mouse b r mr hfb, Function.iterate_one]
    rw [show buildHash (r * 2) [⟨a, r⟩, ⟨b, r⟩]
        = ((SpatialHash.new (r * 2)).insert 0 a).insert 1 b from rfl]
    exact collideNeighbors_pair _ a b r hrr hba hlencol hnear hsub
  rw [hupd]
  simp only [List.getD_cons_zero, List.getD_cons_succ]
  constructor
  · exact pairSep_distance a b r hrr hba
  · rw [pairSep_distance a b r hrr hba]
    exact hcol

/-- Witness for C5 at a concrete pair: radius 5 at (0,0) and (6,0) with a
far cursor at (1000,0). -/
theorem separation_pair_separates_witness :
    (((SeparateCollisionSimulation.update
          ⟨⟨⟨1000, 0⟩, 50⟩, [⟨⟨0, 0⟩, 5⟩, ⟨⟨6, 0⟩, 5⟩], 1, 5⟩
        ⟨1000, 0⟩).particles.getD 0 default).pos).distance
      (((SeparateCollisionSimulation.update
          ⟨⟨⟨1000, 0⟩, 50⟩, [⟨⟨0, 0⟩, 5⟩, ⟨⟨6, 0⟩, 5⟩], 1, 5⟩
        ⟨1000, 0⟩).particles.getD 1 default).pos) = 5 + 5 ∧
    Vec2.distance ⟨0, 0⟩ ⟨6, 0⟩ <
      (((SeparateCollisionSimulation.update
          ⟨⟨⟨1000, 0⟩, 50⟩, [⟨⟨0, 0⟩, 5⟩, ⟨⟨6, 0⟩, 5⟩], 1, 5⟩
        ⟨1000, 0⟩).particles.getD 0 default).pos).distance
      (((SeparateCollisionSimulation.update
          ⟨⟨⟨1000, 0⟩, 50⟩, [⟨⟨0, 0⟩, 5⟩, ⟨⟨6, 0⟩, 5⟩], 1, 5⟩
        ⟨1000, 0⟩).particles.getD 1 default).pos) := by
  have hd6 : Vec2.distance ⟨0, 0⟩ ⟨6, 0⟩ = 6 := by
    unfold Vec2.distance
    rw [show (Vec2.mk 0 0) - ⟨6, 0⟩ = Vec2.mk (-6) 0 by ext <;> norm_num]
    exact length_neg_six_zero
  have hl1 : ((Vec2.mk 1000 0) - ⟨0, 0⟩).length = 1000 := by
    rw [show (Vec2.mk 1000 0) - ⟨0, 0⟩ = Vec2.mk 1000 0 by ext <;> norm_num, Vec2.length_mk]
    exact sqrt_eval (by norm_num) (by norm_num)
  have hl2 : ((Vec2.mk 1000 0) - ⟨6, 0⟩).length = 994 := by
    rw [show (Vec2.mk 1000 0) - ⟨6, 0⟩ = Vec2.mk 994 0 by ext <;> norm_num, Vec2.length_mk]
    exact sqrt_eval (by norm_num) (by norm_num)
  exact separation_pair_separates ⟨0, 0⟩ ⟨6, 0⟩ ⟨1000, 0⟩ ⟨1000, 0⟩ 5 50
    (by norm_num) (by rw [hd6]; norm_num) (by rw [hd6]; norm_num)
    (by rw [hl1]; norm_num) (by rw [hl2]; norm_num)
